import Mathlib

/-!
Verification development for the `funcs` template-helper library
(`funcs.go`): a shallow embedding of its functions and proofs of the
specification's claims about them.

Dynamically-typed template arguments (`interface{}` values) are embedded
as the inductive type `Funcs.Value`.  Go functions returning
`(T, error)` are embedded as `Except String T`, carrying the error
message string the Go code produces.  A runtime panic (which is not an
error return) is kept distinct via the `Funcs.RuntimePanic` type.
-/

namespace Funcs

/-- Embedding of a dynamically-typed template argument (`interface{}`).
`str`, `bool` and `nil` are the concrete cases the claims exercise;
`obj rep` stands for any other Go value (slice, map, struct, ...) that
the `cast` coercion helpers reject, carrying its `fmt` `%v` rendering
`rep`. -/
inductive Value where
  | str (s : String)
  | bool (b : Bool)
  | nil
  | obj (rep : String)
deriving DecidableEq

/-- Whether a value is a Go `string` (the type assertion `.(string)`
used by `dictionary` succeeds exactly on these). -/
def Value.isStr : Value → Bool
  | .str _ => true
  | _ => false

/-- The underlying string of a `.str` value (and `""` otherwise). -/
def Value.toStr : Value → String
  | .str s => s
  | _ => ""

/-- Model of `cast.ToStringE` from github.com/spf13/cast, as used by
`htmlEscape`, `htmlUnescape`, `split`, `safeHTML` and `safeURL`:
strings coerce to themselves, booleans to `strconv.FormatBool` output,
`nil` to the empty string, and other values fail with a cast error. -/
def toStringE : Value → Except String String
  | .str s => .ok s
  | .bool b => .ok (if b then "true" else "false")
  | .nil => .ok ""
  | .obj _ => .error "unable to cast to string"

/-- Model of `fmt.Sprintf` with the `%v` verb (the default string
representation used by `querify` for dictionary values): strings print
verbatim, booleans as `true`/`false`, a nil interface as `<nil>`, and
an `obj` value prints as the rendering it carries. -/
def goStr : Value → String
  | .str s => s
  | .bool b => if b then "true" else "false"
  | .nil => "<nil>"
  | .obj rep => rep

/-- Concatenation of the images of `f` over a list (`concatMap`). -/
def concatMap (f : α → List β) : List α → List β
  | [] => []
  | a :: as => f a ++ concatMap f as

/-! ## loop -/

/-- A Go runtime panic.  `make([]struct\x7b\x7d, n)` panics with
`makeslice: len out of range` when `n` is negative. -/
inductive RuntimePanic where
  | makesliceLenOutOfRange
deriving DecidableEq

/-- Embedding of `loop(n int) []struct\x7b\x7d`, which is
`make([]struct\x7b\x7d, n)`: a slice of `n` empty elements for
`n >= 0`, and a runtime panic for negative `n` (Go's `make` panics on a
negative length; the element type is zero-sized, so no allocation-size
panic is possible for any non-negative machine-int length). -/
def loop (n : Int) : Except RuntimePanic (List Unit) :=
  if n < 0 then .error RuntimePanic.makesliceLenOutOfRange
  else .ok (List.replicate n.toNat ())

/-! ## htmlEscape / htmlUnescape -/

/-- Model of the replacement table of Go's `html.EscapeString`: the
five characters it escapes and their replacement entities. -/
def escapeChar (c : Char) : List Char :=
  if c = '&' then ['&', 'a', 'm', 'p', ';']
  else if c = '\'' then ['&', '#', '3', '9', ';']
  else if c = '<' then ['&', 'l', 't', ';']
  else if c = '>' then ['&', 'g', 't', ';']
  else if c = '"' then ['&', '#', '3', '4', ';']
  else [c]

/-- Model of Go's `html.EscapeString` over the character list of a
string: every character is replaced by `escapeChar`. -/
def escapeList (l : List Char) : List Char :=
  concatMap escapeChar l

/-- Model of Go's `html.UnescapeString`, restricted to the entities
that `html.EscapeString` produces: at a `&` the scanner decodes
`&amp;` `&lt;` `&gt;` `&#39;` `&#34;` and otherwise copies the
character.  (The real function also decodes the rest of the HTML
entity table; on strings built only from the five entities above the
behaviours agree, which is the domain the claims quantify over.) -/
def unescapeList : List Char → List Char
  | [] => []
  | '&' :: 'a' :: 'm' :: 'p' :: ';' :: rest => '&' :: unescapeList rest
  | '&' :: 'l' :: 't' :: ';' :: rest => '<' :: unescapeList rest
  | '&' :: 'g' :: 't' :: ';' :: rest => '>' :: unescapeList rest
  | '&' :: '#' :: '3' :: '9' :: ';' :: rest => '\'' :: unescapeList rest
  | '&' :: '#' :: '3' :: '4' :: ';' :: rest => '"' :: unescapeList rest
  | c :: rest => c :: unescapeList rest

/-- String-level `html.EscapeString` model. -/
def escapeString (s : String) : String :=
  String.mk (escapeList s.data)

/-- String-level `html.UnescapeString` model (see `unescapeList`). -/
def unescapeString (s : String) : String :=
  String.mk (unescapeList s.data)

/-- Embedding of `htmlEscape(in interface{}) (string, error)`:
coerce to string with `cast.ToStringE`, then `html.EscapeString`. -/
def htmlEscape (v : Value) : Except String String :=
  match toStringE v with
  | .error e => .error e
  | .ok s => .ok (escapeString s)

/-- Embedding of `htmlUnescape(in interface{}) (string, error)`:
coerce to string with `cast.ToStringE`, then `html.UnescapeString`. -/
def htmlUnescape (v : Value) : Except String String :=
  match toStringE v with
  | .error e => .error e
  | .ok s => .ok (unescapeString s)

/-! ## dictionary -/

/-- Model of the map assignment `dict[key] = value` on a
`map[string]interface{}` represented as an association list with
distinct keys: replace the value at an existing key, else append the
new entry. -/
def dictInsert (k : String) (v : Value) : List (String × Value) → List (String × Value)
  | [] => [(k, v)]
  | (k', v') :: t => if k' = k then (k', v) :: t else (k', v') :: dictInsert k v t

/-- The loop body of `dictionary`: walk the arguments two at a time,
assert each key is a string, and assign into the map.  (The
one-element case is unreachable: the caller has already checked the
argument count is even.) -/
def dictLoop : List Value → List (String × Value) → Except String (List (String × Value))
  | [], acc => .ok acc
  | .str s :: v :: t, acc => dictLoop t (dictInsert s v acc)
  | _ :: _ :: _, _ => .error "dict keys must be strings"
  | [_], _ => .error "invalid dict call"

/-- Embedding of `dictionary(values ...interface{})
(map[string]interface{}, error)`: reject an odd argument count with
`invalid dict call`, else build the map pairwise. -/
def dictionary (values : List Value) : Except String (List (String × Value)) :=
  if values.length % 2 = 0 then dictLoop values [] else .error "invalid dict call"

/-- The arguments at even (0-based) positions of an argument list: the
key positions checked by `dictionary`. -/
def keysAt : List Value → List Value
  | [] => []
  | [k] => [k]
  | k :: _ :: t => k :: keysAt t

/-- The (key, value) pairs of an argument list, with keys read as
strings (meaningful under the hypothesis that all key positions hold
strings). -/
def pairsOf : List Value → List (String × Value)
  | k :: v :: t => (k.toStr, v) :: pairsOf t
  | _ => []

/-- The key strings of an argument list, in order of appearance. -/
def keyList (values : List Value) : List String :=
  (pairsOf values).map Prod.fst

/-- The key set evolution of repeated map assignment: an already
present key leaves the key list unchanged, a new key is appended
(used to characterise the entry count of `dictionary`). -/
def insertKeys : List String → List String → List String
  | ks, [] => ks
  | ks, k :: t => insertKeys (if k ∈ ks then ks else ks ++ [k]) t

/-! ## querify -/

/-- UTF-8 encoding of a character as its byte values. -/
def utf8Bytes (c : Char) : List Nat :=
  let n := c.toNat
  if n < 128 then [n]
  else if n < 2048 then [192 + n / 64, 128 + n % 64]
  else if n < 65536 then [224 + n / 4096, 128 + (n / 64) % 64, 128 + n % 64]
  else [240 + n / 262144, 128 + (n / 4096) % 64, 128 + (n / 64) % 64, 128 + n % 64]

/-- Uppercase hexadecimal digit for `n < 16`. -/
def hexDigit (n : Nat) : Char :=
  if n < 10 then Char.ofNat (48 + n) else Char.ofNat (55 + n)

/-- Percent-escaping of one byte under the rules of Go's
`url.QueryEscape`: ASCII letters, digits and `-` `_` `.` `~` stay,
space becomes `+`, everything else becomes `%XX`. -/
def escapeByte (b : Nat) : List Char :=
  if (65 ≤ b ∧ b ≤ 90) ∨ (97 ≤ b ∧ b ≤ 122) ∨ (48 ≤ b ∧ b ≤ 57)
      ∨ b = 45 ∨ b = 95 ∨ b = 46 ∨ b = 126 then [Char.ofNat b]
  else if b = 32 then ['+']
  else ['%', hexDigit (b / 16), hexDigit (b % 16)]

/-- Model of Go's `url.QueryEscape`: escape every UTF-8 byte of the
string per `escapeByte`. -/
def queryEscape (s : String) : String :=
  String.mk (concatMap escapeByte (concatMap utf8Bytes s.data))

/-- Byte-lexicographic string comparison, as used by `sort.Strings`
inside `url.Values.Encode` (for valid UTF-8, byte order coincides with
code-point order, compared here). -/
def charsLe : List Char → List Char → Bool
  | [], _ => true
  | _ :: _, [] => false
  | a :: as, b :: bs =>
    if a.toNat < b.toNat then true
    else if b.toNat < a.toNat then false
    else charsLe as bs

/-- `charsLe` on strings. -/
def strLe (a b : String) : Bool :=
  charsLe a.data b.data

/-- Insertion step of the sort performed by `url.Values.Encode` on its
keys. -/
def insertStr (k : String) : List String → List String
  | [] => [k]
  | x :: xs => if strLe k x then k :: x :: xs else x :: insertStr k xs

/-- Ascending sort of the keys (model of `sort.Strings` in
`url.Values.Encode`). -/
def sortStrings : List String → List String
  | [] => []
  | x :: xs => insertStr x (sortStrings xs)

/-- Joining the `key=value` fragments with `&`, as
`url.Values.Encode` does with its string builder. -/
def joinAmp : List String → String
  | [] => ""
  | [x] => x
  | x :: y :: t => x ++ "&" ++ joinAmp (y :: t)

/-- Model of the `querify` output production: the `url.Values` built
by `qs.Add(name, fmt.Sprintf("%v", value))` over the dictionary, then
`qs.Encode()`, which sorts the keys ascending and emits
`escape(k)=escape(v)` fragments joined by `&`.  (Each key occurs once
in the dictionary, so each key carries exactly one value.) -/
def encodeValues (d : List (String × Value)) : String :=
  joinAmp ((sortStrings (d.map Prod.fst)).map
    (fun k => queryEscape k ++ "=" ++ queryEscape (goStr ((List.lookup k d).getD (Value.str "")))))

/-- Embedding of `querify(params ...interface{}) (string, error)`:
delegate to `dictionary`; on any dictionary failure return the single
generic error `querify keys must be strings`, else encode. -/
def querify (params : List Value) : Except String String :=
  match dictionary params with
  | .error _ => .error "querify keys must be strings"
  | .ok d => .ok (encodeValues d)

/-! ## split -/

/-- The scanner of Go's `strings.Split` for a non-empty separator
`c :: cs`: walk the string; when the separator is a prefix of the
remainder, emit the accumulated piece and skip the separator (the
`skip` counter consumes its remaining `cs.length` characters), else
accumulate the character.  `acc` holds the current piece reversed. -/
def splitAux (c : Char) (cs : List Char) : List Char → Nat → List Char → List (List Char)
  | [], _, acc => [acc.reverse]
  | _ :: rest, skip + 1, acc => splitAux c cs rest skip acc
  | d :: rest, 0, acc =>
    if (c :: cs).isPrefixOf (d :: rest) then
      acc.reverse :: splitAux c cs rest cs.length []
    else
      splitAux c cs rest 0 (d :: acc)

/-- Model of Go's `strings.Split` on character lists: an empty
separator explodes the string into one piece per character (per rune,
in Go); a non-empty separator splits at each leftmost occurrence. -/
def splitChars (s sep : List Char) : List (List Char) :=
  match sep with
  | [] => s.map (fun c => [c])
  | c :: cs => splitAux c cs s 0 []

/-- Embedding of `split(a interface{}, delimiter string) ([]string,
error)`: coerce `a` to string with `cast.ToStringE`, then
`strings.Split`. -/
def split (a : Value) (delimiter : String) : Except String (List String) :=
  match toStringE a with
  | .error e => .error e
  | .ok s => .ok ((splitChars s.data delimiter.data).map String.mk)

/-- Joining a list of pieces with a separator (used to state what
`split` preserves). -/
def joinWith (sep : List Char) : List (List Char) → List Char
  | [] => []
  | [x] => x
  | x :: y :: t => x ++ sep ++ joinWith sep (y :: t)

/-! ## dateFormat -/

/-- A wall-clock time as `dateFormat` consumes it: the calendar fields
that the layout fragment modelled below can render. -/
structure GoTime where
  year : Nat
  month : Nat
  day : Nat
  hour : Nat
  minute : Nat
  second : Nat
deriving DecidableEq

/-- Two-digit zero-padded decimal rendering. -/
def pad2 (n : Nat) : String :=
  if n < 10 then "0" ++ toString n else toString n

/-- Modelled fragment of Go's `time.Time.Format` layout scanner: the
reference-time tokens `2006` (year), `01` (month), `02` (day), `15`
(hour), `04` (minute), `05` (second) are expanded and every other
character is copied literally.  (The full scanner knows more tokens;
the claims only depend on literal copying and on the empty layout.) -/
def formatAux (t : GoTime) : List Char → List Char
  | [] => []
  | '2' :: '0' :: '0' :: '6' :: rest => (toString t.year).data ++ formatAux t rest
  | '0' :: '1' :: rest => (pad2 t.month).data ++ formatAux t rest
  | '0' :: '2' :: rest => (pad2 t.day).data ++ formatAux t rest
  | '1' :: '5' :: rest => (pad2 t.hour).data ++ formatAux t rest
  | '0' :: '4' :: rest => (pad2 t.minute).data ++ formatAux t rest
  | '0' :: '5' :: rest => (pad2 t.second).data ++ formatAux t rest
  | c :: rest => c :: formatAux t rest

/-- `time.Time.Format` model on strings (see `formatAux`). -/
def formatTime (layout : String) (t : GoTime) : String :=
  String.mk (formatAux t layout.data)

/-- Whether a character is an ASCII decimal digit. -/
def isDigit (c : Char) : Bool :=
  decide (48 ≤ c.toNat) && decide (c.toNat ≤ 57)

/-- Numeric value of an ASCII decimal digit. -/
def digitVal (c : Char) : Nat :=
  c.toNat - 48

/-- Modelled fragment of `cast.StringToDate`: among the layouts the
cast library tries we model the `2006-01-02` date layout; any string
not of that shape is rejected (as `not-a-date` is, by every layout the
real library tries). -/
def parseDate (s : String) : Option GoTime :=
  match s.data with
  | [y1, y2, y3, y4, '-', m1, m2, '-', d1, d2] =>
    if isDigit y1 && isDigit y2 && isDigit y3 && isDigit y4
        && isDigit m1 && isDigit m2 && isDigit d1 && isDigit d2 then
      some ⟨digitVal y1 * 1000 + digitVal y2 * 100 + digitVal y3 * 10 + digitVal y4,
            digitVal m1 * 10 + digitVal m2,
            digitVal d1 * 10 + digitVal d2, 0, 0, 0⟩
    else none
  | _ => none

/-- Modelled fragment of `cast.ToTimeE`: strings are parsed as dates
(see `parseDate`); booleans, nil and other non-time values fail with a
cast error, as in the library's default case. -/
def toTimeE : Value → Except String GoTime
  | .str s =>
    match parseDate s with
    | some t => .ok t
    | none => .error "unable to cast to Time"
  | _ => .error "unable to cast to Time"

/-- Embedding of `dateFormat(layout string, v interface{}) (string,
error)`: a nil value formats the current wall-clock time (passed here
as the explicit parameter `now`); any other value is coerced with
`cast.ToTimeE`, propagating its error. -/
def dateFormat (layout : String) (now : GoTime) (v : Value) : Except String String :=
  match v with
  | .nil => .ok (formatTime layout now)
  | v' =>
    match toTimeE v' with
    | .error e => .error e
    | .ok t => .ok (formatTime layout t)

end Funcs

namespace Funcs

/-! ## General helpers -/

theorem string_mk_data (s : String) : String.mk s.data = s := rfl

theorem data_ne_nil_of_ne_empty (s : String) (h : s ≠ "") : s.data ≠ [] := by
  intro hd
  exact h (by cases s with | mk l => cases hd; rfl)

/-! ## Lemmas about htmlEscape / htmlUnescape -/

theorem escapeList_cons (c : Char) (l : List Char) :
    escapeList (c :: l) = escapeChar c ++ escapeList l := rfl

theorem escapeChar_amp : escapeChar '&' = ['&', 'a', 'm', 'p', ';'] := rfl

theorem escapeChar_apos : escapeChar '\'' = ['&', '#', '3', '9', ';'] := rfl

theorem escapeChar_lt : escapeChar '<' = ['&', 'l', 't', ';'] := rfl

theorem escapeChar_gt : escapeChar '>' = ['&', 'g', 't', ';'] := rfl

theorem escapeChar_quot : escapeChar '"' = ['&', '#', '3', '4', ';'] := rfl

theorem escapeChar_other (c : Char)
    (h : ¬(c = '<' ∨ c = '>' ∨ c = '&' ∨ c = '\'' ∨ c = '"')) : escapeChar c = [c] := by
  push_neg at h
  obtain ⟨h1, h2, h3, h4, h5⟩ := h
  simp [escapeChar, h1, h2, h3, h4, h5]

theorem unescape_amp (r : List Char) :
    unescapeList ('&' :: 'a' :: 'm' :: 'p' :: ';' :: r) = '&' :: unescapeList r := rfl

theorem unescape_lt (r : List Char) :
    unescapeList ('&' :: 'l' :: 't' :: ';' :: r) = '<' :: unescapeList r := rfl

theorem unescape_gt (r : List Char) :
    unescapeList ('&' :: 'g' :: 't' :: ';' :: r) = '>' :: unescapeList r := rfl

theorem unescape_apos (r : List Char) :
    unescapeList ('&' :: '#' :: '3' :: '9' :: ';' :: r) = '\'' :: unescapeList r := rfl

theorem unescape_quot (r : List Char) :
    unescapeList ('&' :: '#' :: '3' :: '4' :: ';' :: r) = '"' :: unescapeList r := rfl

/-- Round trip on character lists: unescaping the escape of a string
made only of the five escaped characters restores it. -/
theorem unescape_escape_list :
    ∀ l : List Char, (∀ c ∈ l, c = '<' ∨ c = '>' ∨ c = '&' ∨ c = '\'' ∨ c = '"') →
      unescapeList (escapeList l) = l := by
  intro l
  induction l with
  | nil => intro _; rfl
  | cons c t ih =>
    intro h
    have hc := h c (by simp)
    have ht : ∀ x ∈ t, x = '<' ∨ x = '>' ∨ x = '&' ∨ x = '\'' ∨ x = '"' :=
      fun x hx => h x (by simp [hx])
    rcases hc with h1 | h1 | h1 | h1 | h1 <;> subst h1
    · rw [escapeList_cons, escapeChar_lt]
      simp only [List.cons_append, List.nil_append]
      rw [unescape_lt, ih ht]
    · rw [escapeList_cons, escapeChar_gt]
      simp only [List.cons_append, List.nil_append]
      rw [unescape_gt, ih ht]
    · rw [escapeList_cons, escapeChar_amp]
      simp only [List.cons_append, List.nil_append]
      rw [unescape_amp, ih ht]
    · rw [escapeList_cons, escapeChar_apos]
      simp only [List.cons_append, List.nil_append]
      rw [unescape_apos, ih ht]
    · rw [escapeList_cons, escapeChar_quot]
      simp only [List.cons_append, List.nil_append]
      rw [unescape_quot, ih ht]

/-- `escapeList` is the identity on lists free of the five escaped
characters. -/
theorem escapeList_id :
    ∀ l : List Char, (∀ c ∈ l, ¬(c = '<' ∨ c = '>' ∨ c = '&' ∨ c = '\'' ∨ c = '"')) →
      escapeList l = l := by
  intro l
  induction l with
  | nil => intro _; rfl
  | cons c t ih =>
    intro h
    rw [escapeList_cons, escapeChar_other c (h c (by simp)),
      ih (fun x hx => h x (by simp [hx]))]
    rfl

end Funcs

namespace Funcs

/-! ## Lemmas about split -/

theorem isPrefixOf_append :
    ∀ p l : List Char, p.isPrefixOf l = true → p ++ l.drop p.length = l := by
  intro p
  induction p with
  | nil => intro l _; simp
  | cons a as ih =>
    intro l h
    cases l with
    | nil => simp [List.isPrefixOf] at h
    | cons b bs =>
      simp only [List.isPrefixOf, Bool.and_eq_true, beq_iff_eq] at h
      obtain ⟨hab, hpre⟩ := h
      subst hab
      simp only [List.length_cons, List.drop_succ_cons, List.cons_append, List.cons.injEq,
        true_and]
      exact ih bs hpre

theorem splitAux_skip (c : Char) (cs : List Char) :
    ∀ (s : List Char) (k : Nat), splitAux c cs s k [] = splitAux c cs (s.drop k) 0 [] := by
  intro s
  induction s with
  | nil => intro k; simp [splitAux]
  | cons d rest ih =>
    intro k
    cases k with
    | zero => rfl
    | succ k' => simpa [splitAux] using ih k'

theorem splitAux_ne_nil (c : Char) (cs : List Char) :
    ∀ (s : List Char) (k : Nat) (acc : List Char), splitAux c cs s k acc ≠ [] := by
  intro s
  induction s with
  | nil => intro k acc; simp [splitAux]
  | cons d rest ih =>
    intro k acc
    cases k with
    | succ k' => simpa [splitAux] using ih k' acc
    | zero =>
      by_cases h : (c :: cs).isPrefixOf (d :: rest)
      · simp [splitAux, h]
      · simpa [splitAux, h] using ih 0 (d :: acc)

theorem joinWith_cons (sep x : List Char) (L : List (List Char)) (h : L ≠ []) :
    joinWith sep (x :: L) = x ++ sep ++ joinWith sep L := by
  cases L with
  | nil => exact absurd rfl h
  | cons y t => rfl

/-- Joining the pieces produced by the non-empty-separator scanner with
the separator restores the input (prefixed by the reversed
accumulator). -/
theorem splitAux_join (c : Char) (cs : List Char) :
    ∀ (s acc : List Char), joinWith (c :: cs) (splitAux c cs s 0 acc) = acc.reverse ++ s
  | [], acc => by simp [splitAux, joinWith]
  | d :: rest, acc => by
    by_cases h : (c :: cs).isPrefixOf (d :: rest)
    · have hd : (c :: cs) ++ rest.drop cs.length = d :: rest := by
        have h2 := isPrefixOf_append (c :: cs) (d :: rest) h
        simpa using h2
      have hlen : (rest.drop cs.length).length < rest.length + 1 := by
        simp only [List.length_drop]
        omega
      rw [show splitAux c cs (d :: rest) 0 acc
            = acc.reverse :: splitAux c cs rest cs.length [] by simp [splitAux, h]]
      rw [splitAux_skip]
      rw [joinWith_cons _ _ _ (splitAux_ne_nil c cs _ 0 [])]
      rw [splitAux_join c cs (rest.drop cs.length) []]
      rw [List.reverse_nil, List.nil_append, List.append_assoc, hd]
    · rw [show splitAux c cs (d :: rest) 0 acc = splitAux c cs rest 0 (d :: acc) by
        simp [splitAux, h]]
      rw [splitAux_join c cs rest (d :: acc)]
      simp
termination_by s _ => s.length

theorem splitChars_empty_sep (s : List Char) :
    splitChars s [] = s.map (fun c => [c]) := rfl

theorem splitChars_nil (c : Char) (cs : List Char) : splitChars [] (c :: cs) = [[]] := rfl

end Funcs

namespace Funcs

/-! ## Lemmas about dictionary -/

/-- Under an even argument count with string keys, the dictionary loop
folds `dictInsert` over the key/value pairs. -/
theorem dictLoop_ok :
    ∀ (values : List Value) (acc : List (String × Value)),
      values.length % 2 = 0 → (keysAt values).all Value.isStr = true →
      dictLoop values acc
        = .ok ((pairsOf values).foldl (fun a p => dictInsert p.1 p.2 a) acc)
  | [], acc => by intro _ _; rfl
  | [k], acc => by intro h _; simp at h
  | k :: v :: t, acc => by
    intro h hk
    have ht : t.length % 2 = 0 := by
      simp only [List.length_cons] at h
      omega
    rw [show keysAt (k :: v :: t) = k :: keysAt t from rfl, List.all_cons,
      Bool.and_eq_true] at hk
    obtain ⟨hks, hkt⟩ := hk
    cases k with
    | str s =>
      rw [show dictLoop (Value.str s :: v :: t) acc = dictLoop t (dictInsert s v acc) from rfl]
      rw [dictLoop_ok t (dictInsert s v acc) ht hkt]
      rfl
    | bool b => simp [Value.isStr] at hks
    | nil => simp [Value.isStr] at hks
    | obj r => simp [Value.isStr] at hks

/-- With an even argument count and a non-string value in some key
position, the dictionary loop fails with the key-type error. -/
theorem dictLoop_keyErr :
    ∀ (values : List Value) (acc : List (String × Value)),
      values.length % 2 = 0 → (keysAt values).all Value.isStr = false →
      dictLoop values acc = .error "dict keys must be strings"
  | [], acc => by intro _ hk; simp [keysAt] at hk
  | [k], acc => by intro h _; simp at h
  | k :: v :: t, acc => by
    intro h hk
    have ht : t.length % 2 = 0 := by
      simp only [List.length_cons] at h
      omega
    rw [show keysAt (k :: v :: t) = k :: keysAt t from rfl, List.all_cons,
      Bool.and_eq_false_iff] at hk
    cases k with
    | str s =>
      rcases hk with hks | hkt
      · simp [Value.isStr] at hks
      · rw [show dictLoop (Value.str s :: v :: t) acc = dictLoop t (dictInsert s v acc) from rfl]
        exact dictLoop_keyErr t (dictInsert s v acc) ht hkt
    | bool b => rfl
    | nil => rfl
    | obj r => rfl

/-- Looking a key up after a map assignment: the assigned key reads the
new value, any other key is unaffected. -/
theorem dictInsert_lookup (k s : String) (v : Value) :
    ∀ a : List (String × Value),
      List.lookup k (dictInsert s v a) = if k = s then some v else List.lookup k a := by
  intro a
  induction a with
  | nil =>
    by_cases h : k = s
    · simp [dictInsert, List.lookup, h]
    · simp [dictInsert, List.lookup, h, beq_false_of_ne h]
  | cons p t ih =>
    obtain ⟨k', v'⟩ := p
    by_cases hks : k' = s
    · subst hks
      by_cases hkk : k = k'
      · subst hkk
        simp [dictInsert, List.lookup]
      · simp [dictInsert, List.lookup, beq_false_of_ne hkk, hkk]
    · by_cases hkk : k = k'
      · subst hkk
        simp [dictInsert, hks, List.lookup]
      · simp [dictInsert, hks, List.lookup, beq_false_of_ne hkk, ih]

theorem lookup_append (k : String) :
    ∀ l1 l2 : List (String × Value),
      List.lookup k (l1 ++ l2) = (List.lookup k l1).or (List.lookup k l2) := by
  intro l1 l2
  induction l1 with
  | nil => simp [List.lookup]
  | cons p t ih =>
    obtain ⟨k', v'⟩ := p
    by_cases h : k = k'
    · subst h
      simp [List.lookup]
    · simp [List.lookup, beq_false_of_ne h, ih]

/-- Folding assignments over a pair list: a key reads the value of its
last pair, falling back to the initial map. -/
theorem foldl_dictInsert_lookup (k : String) :
    ∀ (ps : List (String × Value)) (acc : List (String × Value)),
      List.lookup k (ps.foldl (fun a p => dictInsert p.1 p.2 a) acc)
        = (List.lookup k ps.reverse).or (List.lookup k acc) := by
  intro ps
  induction ps with
  | nil => intro acc; simp
  | cons p t ih =>
    intro acc
    obtain ⟨s, v⟩ := p
    rw [List.foldl_cons, ih (dictInsert s v acc), List.reverse_cons, lookup_append]
    by_cases h : k = s
    · subst h
      simp [dictInsert_lookup, List.lookup]
      cases List.lookup k t.reverse <;> simp
    · simp [dictInsert_lookup, h, List.lookup, beq_false_of_ne h]

end Funcs

namespace Funcs

/-- Keys after a map assignment: unchanged when the key is present,
appended otherwise. -/
theorem dictInsert_keys (s : String) (v : Value) :
    ∀ a : List (String × Value),
      (dictInsert s v a).map Prod.fst
        = if s ∈ a.map Prod.fst then a.map Prod.fst else a.map Prod.fst ++ [s] := by
  intro a
  induction a with
  | nil => simp [dictInsert]
  | cons p t ih =>
    obtain ⟨k', v'⟩ := p
    by_cases h : k' = s
    · subst h
      simp [dictInsert]
    · have hne : ¬s = k' := fun hs => h hs.symm
      simp only [dictInsert, if_neg h, List.map_cons, List.mem_cons, hne, false_or, ih]
      by_cases hm : s ∈ t.map Prod.fst
      · simp [hm]
      · simp [hm]

/-- The keys of the folded dictionary are the `insertKeys` evolution of
the pairs' keys. -/
theorem foldl_dictInsert_keys :
    ∀ (ps : List (String × Value)) (acc : List (String × Value)),
      ((ps.foldl (fun a p => dictInsert p.1 p.2 a) acc).map Prod.fst)
        = insertKeys (acc.map Prod.fst) (ps.map Prod.fst) := by
  intro ps
  induction ps with
  | nil => intro acc; rfl
  | cons p t ih =>
    intro acc
    obtain ⟨s, v⟩ := p
    rw [List.foldl_cons, ih (dictInsert s v acc), List.map_cons]
    rw [show insertKeys (acc.map Prod.fst) (s :: t.map Prod.fst)
          = insertKeys (if s ∈ acc.map Prod.fst then acc.map Prod.fst
              else acc.map Prod.fst ++ [s]) (t.map Prod.fst) from rfl]
    rw [dictInsert_keys]

theorem insertKeys_length_le :
    ∀ (ks a : List String), (insertKeys a ks).length ≤ a.length + ks.length := by
  intro ks
  induction ks with
  | nil => intro a; simp [insertKeys]
  | cons k t ih =>
    intro a
    by_cases h : k ∈ a
    · calc (insertKeys a (k :: t)).length = (insertKeys a t).length := by
            simp [insertKeys, h]
        _ ≤ a.length + t.length := ih a
        _ ≤ a.length + (k :: t).length := by simp only [List.length_cons]; omega
    · calc (insertKeys a (k :: t)).length = (insertKeys (a ++ [k]) t).length := by
            simp [insertKeys, h]
        _ ≤ (a ++ [k]).length + t.length := ih (a ++ [k])
        _ = a.length + (k :: t).length := by simp only [List.length_append, List.length_cons, List.length_nil]; omega

theorem insertKeys_of_fresh :
    ∀ (ks a : List String), ks.Nodup → (∀ k ∈ ks, k ∉ a) → insertKeys a ks = a ++ ks := by
  intro ks
  induction ks with
  | nil => intro a _ _; simp [insertKeys]
  | cons k t ih =>
    intro a hnd hf
    have hk : k ∉ a := hf k (by simp)
    have hnd' : t.Nodup := (List.nodup_cons.mp hnd).2
    have hkt : k ∉ t := (List.nodup_cons.mp hnd).1
    rw [show insertKeys a (k :: t) = insertKeys (if k ∈ a then a else a ++ [k]) t from rfl,
      if_neg hk, ih (a ++ [k]) hnd']
    · simp
    · intro x hx
      simp only [List.mem_append, List.mem_singleton]
      rintro (hxa | hxk)
      · exact hf x (by simp [hx]) hxa
      · exact hkt (hxk ▸ hx)

theorem insertKeys_length_lt_of_mem :
    ∀ (ks a : List String) (x : String), x ∈ ks → x ∈ a →
      (insertKeys a ks).length < a.length + ks.length := by
  intro ks
  induction ks with
  | nil => intro a x hx _; simp at hx
  | cons k t ih =>
    intro a x hx hxa
    rw [show insertKeys a (k :: t) = insertKeys (if k ∈ a then a else a ++ [k]) t from rfl]
    rcases List.mem_cons.mp hx with hxk | hxt
    · subst hxk
      rw [if_pos hxa]
      calc (insertKeys a t).length ≤ a.length + t.length := insertKeys_length_le t a
        _ < a.length + (x :: t).length := by simp
    · by_cases hka : k ∈ a
      · rw [if_pos hka]
        calc (insertKeys a t).length < a.length + t.length := ih a x hxt hxa
          _ < a.length + (k :: t).length := by simp
      · rw [if_neg hka]
        have hxa' : x ∈ a ++ [k] := by simp [hxa]
        calc (insertKeys (a ++ [k]) t).length < (a ++ [k]).length + t.length :=
              ih (a ++ [k]) x hxt hxa'
          _ = a.length + (k :: t).length := by simp only [List.length_append, List.length_cons, List.length_nil]; omega

theorem insertKeys_length_lt_of_dup :
    ∀ (ks a : List String), ¬ks.Nodup → (insertKeys a ks).length < a.length + ks.length := by
  intro ks
  induction ks with
  | nil => intro a h; exact absurd List.nodup_nil h
  | cons k t ih =>
    intro a h
    rw [show insertKeys a (k :: t) = insertKeys (if k ∈ a then a else a ++ [k]) t from rfl]
    by_cases hka : k ∈ a
    · rw [if_pos hka]
      calc (insertKeys a t).length ≤ a.length + t.length := insertKeys_length_le t a
        _ < a.length + (k :: t).length := by simp
    · rw [if_neg hka]
      by_cases hkt : k ∈ t
      · calc (insertKeys (a ++ [k]) t).length < (a ++ [k]).length + t.length :=
              insertKeys_length_lt_of_mem t (a ++ [k]) k hkt (by simp)
          _ = a.length + (k :: t).length := by simp only [List.length_append, List.length_cons, List.length_nil]; omega
      · have hnd : ¬t.Nodup := by
          intro hnd
          exact h (List.nodup_cons.mpr ⟨hkt, hnd⟩)
        calc (insertKeys (a ++ [k]) t).length < (a ++ [k]).length + t.length :=
              ih (a ++ [k]) hnd
          _ = a.length + (k :: t).length := by simp only [List.length_append, List.length_cons, List.length_nil]; omega

theorem pairsOf_length :
    ∀ values : List Value, values.length % 2 = 0 → (pairsOf values).length = values.length / 2
  | [] => by intro _; rfl
  | [k] => by intro h; simp at h
  | k :: v :: t => by
    intro h
    have ht : t.length % 2 = 0 := by
      simp only [List.length_cons] at h
      omega
    rw [show pairsOf (k :: v :: t) = (k.toStr, v) :: pairsOf t from rfl]
    have := pairsOf_length t ht
    simp only [List.length_cons, this]
    omega

/-- `keysAt` is exactly the even-position extraction: its `i`-th
element is the `2*i`-th argument. -/
theorem keysAt_get :
    ∀ (values : List Value) (i : Nat), (keysAt values)[i]? = values[2 * i]?
  | [] => by intro i; simp [keysAt]
  | [k] => by
    intro i
    cases i with
    | zero => rfl
    | succ j =>
      rw [show keysAt [k] = [k] from rfl]
      rw [List.getElem?_eq_none (by simp only [List.length_cons, List.length_nil]; omega),
        List.getElem?_eq_none (by simp only [List.length_cons, List.length_nil]; omega)]
  | k :: v :: t => by
    intro i
    cases i with
    | zero =>
      rw [show keysAt (k :: v :: t) = k :: keysAt t from rfl]
      simp
    | succ j =>
      rw [show keysAt (k :: v :: t) = k :: keysAt t from rfl]
      rw [show 2 * (j + 1) = 2 * j + 1 + 1 by omega]
      simp only [List.getElem?_cons_succ]
      exact keysAt_get t j

end Funcs

namespace Funcs

/-! ## Lemmas about the querify key sort -/

theorem charsLe_total : ∀ x y : List Char, charsLe x y = true ∨ charsLe y x = true := by
  intro x
  induction x with
  | nil => intro y; left; rfl
  | cons a as ih =>
    intro y
    cases y with
    | nil => right; rfl
    | cons b bs =>
      by_cases hab : a.toNat < b.toNat
      · left
        simp [charsLe, hab]
      · by_cases hba : b.toNat < a.toNat
        · right
          simp [charsLe, hba]
        · rcases ih bs with h | h
          · left
            simp [charsLe, hab, hba, h]
          · right
            simp [charsLe, hab, hba, h]

theorem charsLe_trans :
    ∀ x y z : List Char, charsLe x y = true → charsLe y z = true → charsLe x z = true := by
  intro x
  induction x with
  | nil => intro y z _ _; rfl
  | cons a as ih =>
    intro y z hxy hyz
    cases y with
    | nil => simp [charsLe] at hxy
    | cons b bs =>
      cases z with
      | nil => simp [charsLe] at hyz
      | cons c cs =>
        simp only [charsLe] at hxy hyz ⊢
        by_cases hab : a.toNat < b.toNat
        · by_cases hbc : b.toNat < c.toNat
          · simp [show a.toNat < c.toNat by omega]
          · by_cases hcb : c.toNat < b.toNat
            · simp [hbc, hcb] at hyz
            · simp [show a.toNat < c.toNat by omega]
        · by_cases hba : b.toNat < a.toNat
          · simp [hab, hba] at hxy
          · by_cases hbc : b.toNat < c.toNat
            · simp [show a.toNat < c.toNat by omega]
            · by_cases hcb : c.toNat < b.toNat
              · simp [hbc, hcb] at hyz
              · have hac : ¬a.toNat < c.toNat := by omega
                have hca : ¬c.toNat < a.toNat := by omega
                simp only [hab, hba, if_false, if_neg hab, if_neg hba] at hxy
                simp only [if_neg hbc, if_neg hcb] at hyz
                simp only [if_neg hac, if_neg hca]
                exact ih bs cs hxy hyz

theorem strLe_total (a b : String) : strLe a b = true ∨ strLe b a = true :=
  charsLe_total a.data b.data

theorem strLe_trans (a b c : String) :
    strLe a b = true → strLe b c = true → strLe a c = true :=
  charsLe_trans a.data b.data c.data

theorem mem_insertStr (k : String) :
    ∀ (l : List String) (y : String), y ∈ insertStr k l → y = k ∨ y ∈ l := by
  intro l
  induction l with
  | nil => intro y hy; simpa [insertStr] using hy
  | cons x xs ih =>
    intro y hy
    by_cases h : strLe k x
    · simp only [insertStr, if_pos h, List.mem_cons] at hy
      rcases hy with h1 | h1 | h1
      · exact Or.inl h1
      · exact Or.inr (by simp [h1])
      · exact Or.inr (by simp [h1])
    · simp only [insertStr, if_neg h, List.mem_cons] at hy
      rcases hy with h1 | h1
      · exact Or.inr (by simp [h1])
      · rcases ih y h1 with h2 | h2
        · exact Or.inl h2
        · exact Or.inr (by simp [h2])

theorem pairwise_insertStr (k : String) :
    ∀ l : List String, List.Pairwise (fun a b => strLe a b = true) l →
      List.Pairwise (fun a b => strLe a b = true) (insertStr k l) := by
  intro l
  induction l with
  | nil => intro _; simp [insertStr]
  | cons x xs ih =>
    intro hp
    rw [List.pairwise_cons] at hp
    obtain ⟨hx, hxs⟩ := hp
    by_cases h : strLe k x
    · rw [show insertStr k (x :: xs) = k :: x :: xs by simp [insertStr, h]]
      rw [List.pairwise_cons]
      refine ⟨?_, List.pairwise_cons.mpr ⟨hx, hxs⟩⟩
      intro y hy
      rcases List.mem_cons.mp hy with h1 | h1
      · exact h1 ▸ h
      · exact strLe_trans k x y h (hx y h1)
    · rw [show insertStr k (x :: xs) = x :: insertStr k xs by simp [insertStr, h]]
      rw [List.pairwise_cons]
      refine ⟨?_, ih hxs⟩
      intro y hy
      rcases mem_insertStr k xs y hy with h1 | h1
      · subst h1
        rcases strLe_total y x with h2 | h2
        · exact absurd h2 h
        · exact h2
      · exact hx y h1

theorem sortStrings_pairwise :
    ∀ l : List String, List.Pairwise (fun a b => strLe a b = true) (sortStrings l) := by
  intro l
  induction l with
  | nil => simp [sortStrings]
  | cons x xs ih => exact pairwise_insertStr x (sortStrings xs) ih

theorem insertStr_perm (k : String) :
    ∀ l : List String, (insertStr k l).Perm (k :: l) := by
  intro l
  induction l with
  | nil => exact List.Perm.refl _
  | cons x xs ih =>
    by_cases h : strLe k x
    · rw [show insertStr k (x :: xs) = k :: x :: xs by simp [insertStr, h]]
    · rw [show insertStr k (x :: xs) = x :: insertStr k xs by simp [insertStr, h]]
      exact (ih.cons x).trans (List.Perm.swap k x xs)

theorem sortStrings_perm : ∀ l : List String, (sortStrings l).Perm l := by
  intro l
  induction l with
  | nil => exact List.Perm.refl _
  | cons x xs ih => exact (insertStr_perm x (sortStrings xs)).trans (ih.cons x)

end Funcs

namespace Funcs

/-! ## Claim theorems -/

/-- Claim C1, counterexample: the claim says negative input to `loop`
never panics, but `loop (-1)` is `make([]struct\x7b\x7d, -1)`, which
panics at runtime with `makeslice: len out of range` instead of
failing with an error return or yielding an empty sequence. -/
theorem loop_C1_cx :
    loop (-1) = Except.error RuntimePanic.makesliceLenOutOfRange := rfl

/-- Claim C1, amended: for every integer `n >= 0`, `loop n` yields a
sequence of exactly `n` empty elements (`loop 3` has 3 elements and
`loop 0` is empty), and for every `n < 0` the call panics via `make`
with a negative length rather than failing gracefully. -/
theorem loop_C1_amended : ∀ n : Int,
    (0 ≤ n → ∃ l, loop n = Except.ok l ∧ l.length = n.toNat) ∧
    (n < 0 → loop n = Except.error RuntimePanic.makesliceLenOutOfRange) ∧
    loop 3 = Except.ok [(), (), ()] ∧
    loop 0 = Except.ok [] := by
  intro n
  refine ⟨?_, ?_, rfl, rfl⟩
  · intro h
    refine ⟨List.replicate n.toNat (), ?_, List.length_replicate _ _⟩
    simp [loop, not_lt.mpr h]
  · intro h
    simp [loop, h]

/-- Claim C1, witness of the amended theorem at `n = 3`. -/
theorem loop_C1_witness :
    ((0 : Int) ≤ 3) ∧ (∃ l, loop 3 = Except.ok l ∧ l.length = (3 : Int).toNat) :=
  ⟨by decide, (loop_C1_amended 3).1 (by decide)⟩

/-- Claim C8, counterexample: the claim says `dateFormat(layout, null)`
returns a non-empty string for every layout, but with the empty layout
`time.Time.Format` returns the empty string. -/
theorem dateFormat_C8_cx :
    dateFormat "" ⟨2026, 10, 11, 9, 30, 0⟩ Value.nil = Except.ok "" ∧
    ("" : String).length = 0 :=
  ⟨rfl, rfl⟩

/-- Claim C8, amended: for every layout, `dateFormat(layout, null)`
formats the current wall-clock time and does not error (the result is
empty exactly when the layout renders to nothing, e.g. the empty
layout, rather than always non-empty); and for every non-null value
whose time coercion fails — such as the string `not-a-date` — the
coercion error is returned and no formatted output is produced. -/
theorem dateFormat_C8_amended : ∀ (layout : String) (now : GoTime),
    dateFormat layout now Value.nil = Except.ok (formatTime layout now) ∧
    (∀ (v : Value) (e : String), v ≠ Value.nil → toTimeE v = Except.error e →
      dateFormat layout now v = Except.error e) ∧
    dateFormat layout now (Value.str "not-a-date") = Except.error "unable to cast to Time" := by
  intro layout now
  refine ⟨rfl, ?_, rfl⟩
  intro v e hv he
  cases v with
  | nil => exact absurd rfl hv
  | str s => simp only [dateFormat]; rw [he]
  | bool b => simp only [dateFormat]; rw [he]
  | obj r => simp only [dateFormat]; rw [he]

/-- Claim C8, witness of the amended theorem at a concrete layout,
time and failing value. -/
theorem dateFormat_C8_witness :
    (Value.str "nope" ≠ Value.nil) ∧
    (toTimeE (Value.str "nope") = Except.error "unable to cast to Time") ∧
    dateFormat "2006" ⟨2001, 2, 3, 4, 5, 6⟩ (Value.str "nope")
      = Except.error "unable to cast to Time" :=
  ⟨by decide, rfl,
    (dateFormat_C8_amended "2006" ⟨2001, 2, 3, 4, 5, 6⟩).2.1 (Value.str "nope")
      "unable to cast to Time" (by decide) rfl⟩

/-- Claim C10: `htmlEscape` is the identity on every string free of
the five escaped characters. -/
theorem htmlEscape_C10 : ∀ s : String,
    (∀ c ∈ s.data, ¬(c = '<' ∨ c = '>' ∨ c = '&' ∨ c = '\'' ∨ c = '"')) →
    htmlEscape (Value.str s) = Except.ok s := by
  intro s h
  show Except.ok (escapeString s) = Except.ok s
  rw [escapeString, escapeList_id s.data h, string_mk_data]

/-- Claim C10, witness at the string `hello`. -/
theorem htmlEscape_C10_witness :
    (∀ c ∈ ("hello" : String).data, ¬(c = '<' ∨ c = '>' ∨ c = '&' ∨ c = '\'' ∨ c = '"')) ∧
    htmlEscape (Value.str "hello") = Except.ok "hello" :=
  ⟨by decide, htmlEscape_C10 "hello" (by decide)⟩

/-- Claim C6: on every string made only of the characters
`<` `>` `&` `'` `"`, unescaping the escape restores the string:
`htmlUnescape (htmlEscape s) = s`. -/
theorem html_roundtrip_C6 : ∀ s : String,
    (∀ c ∈ s.data, c = '<' ∨ c = '>' ∨ c = '&' ∨ c = '\'' ∨ c = '"') →
    htmlEscape (Value.str s) = Except.ok (escapeString s) ∧
    htmlUnescape (Value.str (escapeString s)) = Except.ok s := by
  intro s h
  refine ⟨rfl, ?_⟩
  show Except.ok (unescapeString (escapeString s)) = Except.ok s
  rw [unescapeString, show (escapeString s).data = escapeList s.data from rfl,
    unescape_escape_list s.data h, string_mk_data]

/-- Claim C6, witness at the string `<&'">`. -/
theorem html_roundtrip_C6_witness :
    (∀ c ∈ (String.mk ['<', '&', '\'', '"', '>']).data,
      c = '<' ∨ c = '>' ∨ c = '&' ∨ c = '\'' ∨ c = '"') ∧
    (htmlEscape (Value.str (String.mk ['<', '&', '\'', '"', '>']))
        = Except.ok (escapeString (String.mk ['<', '&', '\'', '"', '>'])) ∧
      htmlUnescape (Value.str (escapeString (String.mk ['<', '&', '\'', '"', '>'])))
        = Except.ok (String.mk ['<', '&', '\'', '"', '>'])) :=
  ⟨by decide, html_roundtrip_C6 (String.mk ['<', '&', '\'', '"', '>']) (by decide)⟩

/-- Claim C3: `dictionary` fails with the arity error on every
odd-length argument list regardless of values; on an even-length list
with a non-string in some key position it fails with the key-type
error; in every other case it succeeds.  (`keysAt` is exactly the
even-position extraction, per the last conjunct.) -/
theorem dictionary_C3 : ∀ values : List Value,
    (¬values.length % 2 = 0 → dictionary values = Except.error "invalid dict call") ∧
    (values.length % 2 = 0 → (keysAt values).all Value.isStr = false →
      dictionary values = Except.error "dict keys must be strings") ∧
    (values.length % 2 = 0 → (keysAt values).all Value.isStr = true →
      ∃ d, dictionary values = Except.ok d) ∧
    (∀ i : Nat, (keysAt values)[i]? = values[2 * i]?) := by
  intro values
  refine ⟨?_, ?_, ?_, keysAt_get values⟩
  · intro h
    simp only [dictionary, if_neg h]
  · intro he hk
    simp only [dictionary, if_pos he]
    exact dictLoop_keyErr values [] he hk
  · intro he hk
    exact ⟨_, by simp only [dictionary, if_pos he]; exact dictLoop_ok values [] he hk⟩

/-- Claim C3, witness: an odd-length call and an even-length call with
a non-string key, both failing with the stated errors. -/
theorem dictionary_C3_witness :
    (¬([Value.nil].length % 2 = 0)) ∧
    dictionary [Value.nil] = Except.error "invalid dict call" ∧
    ([Value.nil, Value.nil].length % 2 = 0) ∧
    ((keysAt [Value.nil, Value.nil]).all Value.isStr = false) ∧
    dictionary [Value.nil, Value.nil] = Except.error "dict keys must be strings" :=
  ⟨by decide, (dictionary_C3 [Value.nil]).1 (by decide), by decide, by decide,
    (dictionary_C3 [Value.nil, Value.nil]).2.1 (by decide) (by decide)⟩

end Funcs

namespace Funcs

/-- Claim C4: on every even-length argument list with string keys,
`dictionary` succeeds; each key reads the value following its last
occurrence (lookup in the reversed pair list, i.e. last-write-wins);
the map has exactly `len/2` entries when the keys are distinct and
strictly fewer when some key repeats. -/
theorem dictionary_C4 : ∀ values : List Value,
    values.length % 2 = 0 → (keysAt values).all Value.isStr = true →
    ∃ d, dictionary values = Except.ok d ∧
      (∀ k : String, List.lookup k d = List.lookup k (pairsOf values).reverse) ∧
      d.length ≤ values.length / 2 ∧
      ((keyList values).Nodup → d.length = values.length / 2) ∧
      (¬(keyList values).Nodup → d.length < values.length / 2) := by
  intro values he hk
  refine ⟨(pairsOf values).foldl (fun a p => dictInsert p.1 p.2 a) [], ?_, ?_, ?_, ?_, ?_⟩
  · simp only [dictionary, if_pos he]
    exact dictLoop_ok values [] he hk
  · intro k
    rw [foldl_dictInsert_lookup k (pairsOf values) []]
    cases hx : List.lookup k (pairsOf values).reverse <;> simp [hx, List.lookup, Option.or]
  · have hlen : ((pairsOf values).foldl (fun a p => dictInsert p.1 p.2 a) []).length
        = (insertKeys [] (keyList values)).length := by
      rw [← List.length_map _ Prod.fst, foldl_dictInsert_keys (pairsOf values) []]
      rfl
    rw [hlen]
    have h1 := insertKeys_length_le (keyList values) []
    simp only [List.length_nil] at h1
    have h2 : (keyList values).length = values.length / 2 := by
      rw [keyList, List.length_map]
      exact pairsOf_length values he
    omega
  · intro hnd
    have hlen : ((pairsOf values).foldl (fun a p => dictInsert p.1 p.2 a) []).length
        = (insertKeys [] (keyList values)).length := by
      rw [← List.length_map _ Prod.fst, foldl_dictInsert_keys (pairsOf values) []]
      rfl
    rw [hlen, insertKeys_of_fresh (keyList values) [] hnd (by simp)]
    rw [List.nil_append, keyList, List.length_map]
    exact pairsOf_length values he
  · intro hnd
    have hlen : ((pairsOf values).foldl (fun a p => dictInsert p.1 p.2 a) []).length
        = (insertKeys [] (keyList values)).length := by
      rw [← List.length_map _ Prod.fst, foldl_dictInsert_keys (pairsOf values) []]
      rfl
    rw [hlen]
    have h1 := insertKeys_length_lt_of_dup (keyList values) [] hnd
    simp only [List.length_nil] at h1
    have h2 : (keyList values).length = values.length / 2 := by
      rw [keyList, List.length_map]
      exact pairsOf_length values he
    omega

/-- Claim C4, witness at `dict("a", "1", "b", "2")`. -/
theorem dictionary_C4_witness :
    ([Value.str "a", Value.str "1", Value.str "b", Value.str "2"].length % 2 = 0) ∧
    ((keysAt [Value.str "a", Value.str "1", Value.str "b", Value.str "2"]).all
      Value.isStr = true) ∧
    (∃ d, dictionary [Value.str "a", Value.str "1", Value.str "b", Value.str "2"]
        = Except.ok d ∧
      (∀ k : String, List.lookup k d
        = List.lookup k
            (pairsOf [Value.str "a", Value.str "1", Value.str "b", Value.str "2"]).reverse) ∧
      d.length ≤ [Value.str "a", Value.str "1", Value.str "b", Value.str "2"].length / 2 ∧
      ((keyList [Value.str "a", Value.str "1", Value.str "b", Value.str "2"]).Nodup →
        d.length = [Value.str "a", Value.str "1", Value.str "b", Value.str "2"].length / 2) ∧
      (¬(keyList [Value.str "a", Value.str "1", Value.str "b", Value.str "2"]).Nodup →
        d.length < [Value.str "a", Value.str "1", Value.str "b", Value.str "2"].length / 2)) :=
  ⟨by decide, by decide,
    dictionary_C4 [Value.str "a", Value.str "1", Value.str "b", Value.str "2"]
      (by decide) (by decide)⟩

/-- Claim C5: whenever the dictionary builder fails — for the odd-arity
reason or the key-type reason alike — `querify` fails with the single
generic error `querify keys must be strings`, losing which dictionary
error occurred; whenever the dictionary builder succeeds, `querify`
succeeds.  The concrete conjuncts show the two distinct dictionary
errors collapsing to the same querify error. -/
theorem querify_C5 : ∀ params : List Value,
    (∀ e, dictionary params = Except.error e →
      querify params = Except.error "querify keys must be strings") ∧
    (∀ d, dictionary params = Except.ok d → querify params = Except.ok (encodeValues d)) ∧
    querify [Value.bool true] = Except.error "querify keys must be strings" ∧
    querify [Value.bool true, Value.nil] = Except.error "querify keys must be strings" ∧
    dictionary [Value.bool true] = Except.error "invalid dict call" ∧
    dictionary [Value.bool true, Value.nil] = Except.error "dict keys must be strings" := by
  intro params
  refine ⟨?_, ?_, rfl, rfl, rfl, rfl⟩
  · intro e he
    simp only [querify, he]
  · intro d hd
    simp only [querify, hd]

/-- Claim C5, witness: an arity failure of `dictionary` propagating as
the generic querify error. -/
theorem querify_C5_witness :
    (dictionary [Value.str "k"] = Except.error "invalid dict call") ∧
    querify [Value.str "k"] = Except.error "querify keys must be strings" :=
  ⟨rfl, (querify_C5 [Value.str "k"]).1 "invalid dict call" rfl⟩

/-- Claim C2: on every even-length argument list with string keys,
`querify` succeeds and produces the query string whose fragments are
`queryEscape(key)=queryEscape(%v-rendering of value)` joined by `&`,
with the keys sorted ascending (pairwise byte-lexicographic order, the
sort being a permutation of the dictionary's keys); in particular
`querify("b", "2", "a", "1")` is `a=1&b=2`. -/
theorem querify_C2 :
    (∀ params : List Value,
      params.length % 2 = 0 → (keysAt params).all Value.isStr = true →
      ∃ d, dictionary params = Except.ok d ∧
        querify params = Except.ok (joinAmp ((sortStrings (d.map Prod.fst)).map
          (fun k => queryEscape k ++ "="
            ++ queryEscape (goStr ((List.lookup k d).getD (Value.str "")))))) ∧
        List.Pairwise (fun a b => strLe a b = true) (sortStrings (d.map Prod.fst)) ∧
        (sortStrings (d.map Prod.fst)).Perm (d.map Prod.fst)) ∧
    querify [Value.str "b", Value.str "2", Value.str "a", Value.str "1"]
      = Except.ok "a=1&b=2" := by
  refine ⟨?_, rfl⟩
  intro params he hk
  have hd : dictionary params
      = Except.ok ((pairsOf params).foldl (fun a p => dictInsert p.1 p.2 a) []) := by
    simp only [dictionary, if_pos he]
    exact dictLoop_ok params [] he hk
  exact ⟨_, hd, by simp only [querify, hd]; rfl, sortStrings_pairwise _, sortStrings_perm _⟩

/-- Claim C2, witness at `querify("b", "2", "a", "1")`. -/
theorem querify_C2_witness :
    ([Value.str "b", Value.str "2", Value.str "a", Value.str "1"].length % 2 = 0) ∧
    ((keysAt [Value.str "b", Value.str "2", Value.str "a", Value.str "1"]).all
      Value.isStr = true) ∧
    (∃ d, dictionary [Value.str "b", Value.str "2", Value.str "a", Value.str "1"]
        = Except.ok d ∧
      querify [Value.str "b", Value.str "2", Value.str "a", Value.str "1"]
        = Except.ok (joinAmp ((sortStrings (d.map Prod.fst)).map
          (fun k => queryEscape k ++ "="
            ++ queryEscape (goStr ((List.lookup k d).getD (Value.str "")))))) ∧
      List.Pairwise (fun a b => strLe a b = true) (sortStrings (d.map Prod.fst)) ∧
      (sortStrings (d.map Prod.fst)).Perm (d.map Prod.fst)) :=
  ⟨by decide, by decide,
    querify_C2.1 [Value.str "b", Value.str "2", Value.str "a", Value.str "1"]
      (by decide) (by decide)⟩

/-- Claim C7, counterexample: the claim quantifies over every
delimiter, but with the empty delimiter the empty input splits into
the empty sequence, not into a single-element sequence containing the
empty string. -/
theorem split_C7_cx :
    split (Value.str "") "" = Except.ok ([] : List String) ∧
    (Except.ok ([] : List String) : Except String (List String)) ≠ Except.ok [""] :=
  ⟨rfl, by simp⟩

/-- Claim C7, amended: for every input coercing to a string and every
NON-EMPTY delimiter, `split` yields the pieces of the leftmost-first
literal splitting — joining them back with the delimiter restores the
input, empty pieces at boundaries included — and the empty input
yields the single-element sequence containing the empty string; in
particular `split("a,b,,c", ",")` is `["a","b","","c"]` and
`split("", ",")` is `[""]`. -/
theorem split_C7_amended :
    (∀ (v : Value) (s sep : String), toStringE v = Except.ok s → sep ≠ "" →
      split v sep = Except.ok ((splitChars s.data sep.data).map String.mk) ∧
      joinWith sep.data (splitChars s.data sep.data) = s.data ∧
      (s = "" → split v sep = Except.ok [""])) ∧
    split (Value.str "a,b,,c") "," = Except.ok ["a", "b", "", "c"] ∧
    split (Value.str "") "," = Except.ok [""] := by
  refine ⟨?_, rfl, rfl⟩
  intro v s sep hv hsep
  have hd : sep.data ≠ [] := data_ne_nil_of_ne_empty sep hsep
  obtain ⟨c, cs, hcs⟩ : ∃ c cs, sep.data = c :: cs := by
    cases hx : sep.data with
    | nil => exact absurd hx hd
    | cons c cs => exact ⟨c, cs, rfl⟩
  refine ⟨by simp only [split, hv], ?_, ?_⟩
  · rw [hcs, show splitChars s.data (c :: cs) = splitAux c cs s.data 0 [] from rfl]
    simpa using splitAux_join c cs s.data []
  · intro hs
    subst hs
    simp only [split, hv]
    rw [hcs, splitChars_nil]
    rfl

/-- Claim C7, witness of the amended theorem at `split("x,y", ",")`. -/
theorem split_C7_witness :
    (toStringE (Value.str "x,y") = Except.ok "x,y") ∧ ("," : String) ≠ "" ∧
    (split (Value.str "x,y") "," = Except.ok ((splitChars "x,y".data ",".data).map String.mk) ∧
      joinWith ",".data (splitChars "x,y".data ",".data) = "x,y".data ∧
      ("x,y" = "" → split (Value.str "x,y") "," = Except.ok [""])) :=
  ⟨rfl, by decide, split_C7_amended.1 (Value.str "x,y") "x,y" "," rfl (by decide)⟩

/-- Claim C9: with the empty delimiter, `split` explodes the coerced
input into one element per character (per UTF-8 rune in Go), and the
empty input yields the empty sequence — not `[""]`. -/
theorem split_C9 : ∀ (v : Value) (s : String), toStringE v = Except.ok s →
    split v "" = Except.ok (s.data.map (fun c => String.mk [c])) ∧
    (s = "" → split v "" = Except.ok ([] : List String) ∧ split v "" ≠ Except.ok [""]) := by
  intro v s hv
  have h1 : split v "" = Except.ok (s.data.map (fun c => String.mk [c])) := by
    simp only [split, hv]
    rw [splitChars_empty_sep, List.map_map]
    rfl
  refine ⟨h1, ?_⟩
  intro hs
  subst hs
  have h2 : split v "" = Except.ok ([] : List String) := by simpa using h1
  exact ⟨h2, by rw [h2]; simp⟩

/-- Claim C9, witness at `split("ab", "")`. -/
theorem split_C9_witness :
    (toStringE (Value.str "ab") = Except.ok "ab") ∧
    split (Value.str "ab") "" = Except.ok (("ab" : String).data.map (fun c => String.mk [c])) :=
  ⟨rfl, (split_C9 (Value.str "ab") "ab" rfl).1⟩

end Funcs
